import Mathlib

/-!
Shallow embedding of the Minesweeper rule engine in `minesweeper.py`
(class `MinesweeperGame`, plus the `game_over` guard of
`MinesweeperGameUI._update_game`).

Coordinates are `(x, y)` pairs of naturals; Python `int` arguments that can be
negative (the click coordinates, the constructor parameters) are embedded as
`Int`.  Python list indexing (`self._grid[y][x]`), which wraps negative
indices and raises `IndexError` otherwise, is modelled by `pyNorm`.
-/

namespace Minesweeper

/-- Grid coordinates `(x, y)`, 0-indexed. -/
abbrev Coord := Nat × Nat

/-- The eight offsets `(u, v)` produced by the double loop of
`_neighbour_cells` (lines 71-75), with the `(0, 0)` pair skipped. -/
def offsetPairs : List (Int × Int) :=
  ([-1, 0, 1] : List Int).flatMap fun u =>
    ([-1, 0, 1] : List Int).flatMap fun v =>
      if u = 0 ∧ v = 0 then [] else [(u, v)]

/-- Model of `_neighbour_cells` (lines 69-79): the in-bounds cells around `c`, in the
iteration order of the source's double loop. -/
def neighbourCells (w h : Nat) (c : Coord) : List Coord :=
  offsetPairs.filterMap fun uv =>
    if 0 ≤ (c.1 : Int) + uv.1 ∧ (c.1 : Int) + uv.1 < (w : Int) ∧
        0 ≤ (c.2 : Int) + uv.2 ∧ (c.2 : Int) + uv.2 < (h : Int) then
      some (((c.1 : Int) + uv.1).toNat, ((c.2 : Int) + uv.2).toNat)
    else none

/-- One round of the hint loop body (line 51): increment the hint of every
cell in `cs`. -/
def bumpHints (g : Coord → Nat) (cs : List Coord) : Coord → Nat :=
  cs.foldl (fun g c => fun d => if d = c then g c + 1 else g d) g

/-- Lines 48-51 of `__init__`: starting from the all-zero grid, for every bomb
bump the hint of each of its in-bounds neighbours. -/
def mkHints (w h : Nat) (bombs : List Coord) : Coord → Nat :=
  bombs.foldl (fun g b => bumpHints g (neighbourCells w h b)) fun _ => 0

/-- Lines 41-46 of `__init__`: consume the stream `draws` of `randint` results
until `n` distinct bomb coordinates are collected; a draw already marked as a
bomb is skipped.  `none` models exhausting the stream (the Python loop would
keep drawing). -/
def placeBombs (n : Nat) : List Coord → List Coord → Option (List Coord)
  | acc, [] => if acc.length < n then none else some acc
  | acc, d :: rest =>
    if acc.length < n then
      if d ∈ acc then placeBombs n acc rest
      else placeBombs n (acc ++ [d]) rest
    else some acc

/-- The state owned by `MinesweeperGame`: dimensions, bomb list, the hint
grid (as a function, set once at construction), the list
`_known_cells_coordinates` of revealed cells, and
`_number_of_cells_to_uncover`. A cell's `IS_BOMB` flag is membership in
`bombs` (the constructor sets the flag and appends to `self.bombs`
together). -/
structure GameState where
  width : Nat
  height : Nat
  bombs : List Coord
  hint : Coord → Nat
  known : List Coord
  numberToUncover : Int

/-- Ways `__init__` can fail: the `assert` on line 29, `randint` called with
an empty range (positive bomb count but non-positive dimension), or the
modelled draw stream running dry. -/
inductive ConfigError where
  | invalidConfiguration
  | valueError
  | outOfDraws
deriving DecidableEq

/-- Model of `MinesweeperGame.__init__` (lines 20-51), with the `randint` stream made
an explicit argument `draws`. The assert comes first; the bomb-placing loop
body runs only while fewer than `n` bombs are placed (so for `n ≤ 0` it never
draws). -/
def mkGame (w h n : Int) (draws : List Coord) : Except ConfigError GameState :=
  if w * h - n ≤ 0 then .error .invalidConfiguration
  else if 0 < n ∧ (w ≤ 0 ∨ h ≤ 0) then .error .valueError
  else
    match placeBombs n.toNat [] draws with
    | none => .error .outOfDraws
    | some bombs =>
      .ok { width := w.toNat, height := h.toNat, bombs := bombs,
            hint := mkHints w.toNat h.toNat bombs, known := [],
            numberToUncover := w * h - n }

/-- Python list indexing of a list of length `n`: indices in `[0, n)` map to
themselves, indices in `[-n, 0)` wrap to the other end, anything else raises
`IndexError` (`none`). -/
def pyNorm (n : Nat) (i : Int) : Option Nat :=
  if 0 ≤ i ∧ i < (n : Int) then some i.toNat
  else if -(n : Int) ≤ i ∧ i < 0 then some (i + n).toNat
  else none

theorem pyNorm_lt {n : Nat} {i : Int} {k : Nat} (hk : pyNorm n i = some k) :
    k < n := by
  unfold pyNorm at hk
  split at hk
  · cases hk; omega
  · split at hk
    · cases hk; omega
    · cases hk

/-- An in-bounds coordinate; every cell ever pushed on the flood-fill stack
is one (the start after indexing, neighbours by the bound check of
`_neighbour_cells`). -/
def BCell (w h : Nat) := {c : Coord // c.1 < w ∧ c.2 < h}

theorem mem_neighbourCells_bounds {w h : Nat} {c d : Coord}
    (hd : d ∈ neighbourCells w h c) : d.1 < w ∧ d.2 < h := by
  simp only [neighbourCells, List.mem_filterMap] at hd
  obtain ⟨uv, _, hf⟩ := hd
  split at hf
  · cases hf
    constructor <;> simp <;> omega
  · cases hf

/-- Function `neighbourCells` with the bound proofs attached. -/
def neighbourCellsB (w h : Nat) (c : Coord) : List (BCell w h) :=
  (neighbourCells w h c).attach.map fun d => ⟨d.1, mem_neighbourCells_bounds d.2⟩

/-- Number of distinct grid cells currently in `known` (the termination
measure of the flood fill: it can only grow, and is bounded by `w * h`). -/
def knownCard (w h : Nat) (known : List Coord) : Nat :=
  ((Finset.range w ×ˢ Finset.range h).filter (fun c => c ∈ known)).card

theorem knownCard_le (w h : Nat) (known : List Coord) :
    knownCard w h known ≤ w * h := by
  unfold knownCard
  calc ((Finset.range w ×ˢ Finset.range h).filter (fun c => c ∈ known)).card
      ≤ (Finset.range w ×ˢ Finset.range h).card := Finset.card_filter_le _ _
    _ = w * h := by rw [Finset.card_product, Finset.card_range, Finset.card_range]

theorem knownCard_append (w h : Nat) (known : List Coord) (c : Coord)
    (hc1 : c.1 < w) (hc2 : c.2 < h) (hc : c ∉ known) :
    knownCard w h (known ++ [c]) = knownCard w h known + 1 := by
  unfold knownCard
  have hset : (Finset.range w ×ˢ Finset.range h).filter (fun d => d ∈ known ++ [c])
      = insert c ((Finset.range w ×ˢ Finset.range h).filter (fun d => d ∈ known)) := by
    ext d
    simp only [Finset.mem_filter, Finset.mem_insert, Finset.mem_product,
      Finset.mem_range, List.mem_append, List.mem_singleton]
    constructor
    · rintro ⟨hb, hd | hd⟩
      · exact Or.inr ⟨hb, hd⟩
      · exact Or.inl hd
    · rintro (rfl | ⟨hb, hd⟩)
      · exact ⟨⟨hc1, hc2⟩, Or.inr rfl⟩
      · exact ⟨hb, Or.inl hd⟩
  rw [hset, Finset.card_insert_of_not_mem]
  simp only [Finset.mem_filter, not_and]
  exact fun _ => hc

theorem neighbourCells_length_le (w h : Nat) (c : Coord) :
    (neighbourCells w h c).length ≤ 8 := by
  have := List.length_filterMap_le
    (fun uv : Int × Int =>
      if 0 ≤ (c.1 : Int) + uv.1 ∧ (c.1 : Int) + uv.1 < (w : Int) ∧
          0 ≤ (c.2 : Int) + uv.2 ∧ (c.2 : Int) + uv.2 < (h : Int) then
        some (((c.1 : Int) + uv.1).toNat, ((c.2 : Int) + uv.2).toNat)
      else none)
    offsetPairs
  simpa [neighbourCells, offsetPairs] using this

theorem neighbourCellsB_length_le (w h : Nat) (c : Coord) :
    (neighbourCellsB w h c).length ≤ 8 := by
  unfold neighbourCellsB
  rw [List.length_map, List.length_attach]
  exact neighbourCells_length_le w h c

/-- The `while cells_to_check` loop of `play` (lines 94-104).  The Python
stack appends at the end and pops from the end; here the head of `stack` is
the top, so pushing the neighbour list appends its reverse at the front,
which simulates the source's order exactly.  `known` and `hints` are
appended to just as the source appends. -/
def floodLoop (w h : Nat) (f : Coord → Nat) (stack : List (BCell w h))
    (known : List Coord) (hints : List (Coord × Nat)) :
    List (Coord × Nat) × List Coord :=
  match stack with
  | [] => (hints, known)
  | c :: rest =>
    if _hmem : c.1 ∈ known then
      floodLoop w h f rest known hints
    else
      if f c.1 = 0 then
        floodLoop w h f ((neighbourCellsB w h c.1).reverse ++ rest)
          (known ++ [c.1]) (hints ++ [(c.1, f c.1)])
      else
        floodLoop w h f rest (known ++ [c.1]) (hints ++ [(c.1, f c.1)])
termination_by 9 * (w * h - knownCard w h known) + stack.length
decreasing_by
  · simp only [List.length_cons]
    omega
  · simp only [List.length_cons, List.length_append, List.length_reverse]
    have h1 := knownCard_append w h known c.1 c.2.1 c.2.2 _hmem
    have h2 := knownCard_le w h (known ++ [c.1])
    have h3 := neighbourCellsB_length_le w h c.1
    omega
  · simp only [List.length_cons]
    have h1 := knownCard_append w h known c.1 c.2.1 c.2.2 _hmem
    have h2 := knownCard_le w h (known ++ [c.1])
    omega

/-- The result of `MinesweeperGame.play`: `False` (loss), `True` (win), a
list of `((x, y), hint)` pairs (progress), or an uncaught `IndexError` from
the initial cell lookup. -/
inductive PlayResult where
  | indexError
  | loss
  | win
  | progress (hints : List (Coord × Nat))
deriving DecidableEq

/-- Model of `MinesweeperGame.play` (lines 81-111).  The initial `self.cell(x, y)`
lookup indexes `_grid[y][x]` with Python semantics (`pyNorm` row first, then
column); a bomb returns `loss` before anything is mutated; otherwise the
flood fill runs and the win check compares the total known-cell count with
`_number_of_cells_to_uncover`. -/
def play (s : GameState) (x y : Int) : PlayResult × GameState :=
  match hy : pyNorm s.height y with
  | none => (.indexError, s)
  | some cy =>
    match hx : pyNorm s.width x with
    | none => (.indexError, s)
    | some cx =>
      if (cx, cy) ∈ s.bombs then (.loss, s)
      else
        let r := floodLoop s.width s.height s.hint
          [⟨(cx, cy), pyNorm_lt hx, pyNorm_lt hy⟩] s.known []
        if (r.2.length : Int) = s.numberToUncover then (.win, { s with known := r.2 })
        else (.progress r.1, { s with known := r.2 })

/-- The slice of `MinesweeperGameUI` state that the terminal-state guard
uses: the wrapped game and the `game_over` flag. -/
structure UIState where
  game : GameState
  gameOver : Bool

/-- Model of `MinesweeperGameUI._update_game` (lines 170-195), stripped of rendering:
if `game_over` is set the click is ignored; otherwise `play` runs and a win
or loss sets `game_over`.  An `IndexError` would propagate before
`game_over` is touched. -/
def updateGame (u : UIState) (x y : Int) : UIState :=
  if u.gameOver then u
  else
    match play u.game x y with
    | (.win, g) => ⟨g, true⟩
    | (.loss, g) => ⟨g, true⟩
    | (.progress _, g) => ⟨g, false⟩
    | (.indexError, g) => ⟨g, false⟩
/-- Flood reachability ignoring the revealed set: `d` is reachable from `a`
along a chain of neighbour steps in which every cell before the last has
hint 0.  The set of cells reachable from a click target is exactly the
spec's "connected zero-hint region plus its bordering frontier" (see
`reach_iff_region_frontier`), and degenerates to `{a}` when `f a ≠ 0`. -/
inductive Reach (w h : Nat) (f : Coord → Nat) : Coord → Coord → Prop where
  | refl (a : Coord) : Reach w h f a a
  | step {a b d : Coord} (hz : f a = 0) (hb : b ∈ neighbourCells w h a)
      (hr : Reach w h f b d) : Reach w h f a d
/-- Reachability through cells that were unrevealed at the start of the
call: what a single `play` traversal actually explores. -/
inductive ReachU (w h : Nat) (f : Coord → Nat) (known : List Coord) :
    Coord → Coord → Prop where
  | refl (a : Coord) : ReachU w h f known a a
  | step {a b d : Coord} (ha : a ∉ known) (hz : f a = 0)
      (hb : b ∈ neighbourCells w h a) (hr : ReachU w h f known b d) :
      ReachU w h f known a d
/-- The connected zero-hint region of the click target `start`: zero-hint
cells joined to it through zero-hint cells. -/
def zeroRegion (w h : Nat) (f : Coord → Nat) (start d : Coord) : Prop :=
  Reach w h f start d ∧ f d = 0
/-- The bordering positive-hint frontier of the zero-hint region of
`start`. -/
def zeroFrontier (w h : Nat) (f : Coord → Nat) (start d : Coord) : Prop :=
  f d ≠ 0 ∧ ∃ c, zeroRegion w h f start c ∧ d ∈ neighbourCells w h c
/-- Every revealed zero-hint cell has all of its neighbours revealed.  This
holds after construction (nothing revealed) and is preserved by every
`play` call, so it characterises every board a game in progress can be in. -/
def GameState.Closed (s : GameState) : Prop :=
  ∀ c ∈ s.known, s.hint c = 0 →
    ∀ d ∈ neighbourCells s.width s.height c, d ∈ s.known
/-- All grid coordinates, row-major like the constructor's loops. -/
def gridCells (w h : Nat) : List Coord :=
  (List.range h).flatMap fun y => (List.range w).map fun x => (x, y)
/-! ### Concrete boards used by witnesses and counterexamples -/

/-- The board `mkGame 3 3 1 [(2, 2)]` produces: the spec's 3×3 example with
a single mine in the far corner. -/
def board33 : GameState :=
  { width := 3, height := 3, bombs := [(2, 2)], hint := mkHints 3 3 [(2, 2)],
    known := [], numberToUncover := 8 }

/-- The board `mkGame 1 2 1 [(0, 1)]` produces: the spec's 1×2 win/loss
example. -/
def board12 : GameState :=
  { width := 1, height := 2, bombs := [(0, 1)], hint := mkHints 1 2 [(0, 1)],
    known := [], numberToUncover := 1 }

/-- Board `board33` after cell `(1, 1)` (hint 1) has been revealed. -/
def revBoard : GameState := { board33 with known := [(1, 1)] }

/-- The board `mkGame 2 2 1 [(1, 1)]` produces. -/
def lossBoard : GameState :=
  { width := 2, height := 2, bombs := [(1, 1)], hint := mkHints 2 2 [(1, 1)],
    known := [], numberToUncover := 3 }

/-- The board `mkGame 2 1 1 [(1, 0)]` produces. -/
def negBoard : GameState :=
  { width := 2, height := 1, bombs := [(1, 0)], hint := mkHints 2 1 [(1, 0)],
    known := [], numberToUncover := 1 }

/-! ### Step equations for the flood-fill loop -/

theorem floodLoop_nil (w h : Nat) (f : Coord → Nat) (known : List Coord)
    (hints : List (Coord × Nat)) : floodLoop w h f [] known hints = (hints, known) := by
  unfold floodLoop
  rfl

theorem floodLoop_cons_mem (w h : Nat) (f : Coord → Nat) (c : BCell w h)
    (rest : List (BCell w h)) (known : List Coord) (hints : List (Coord × Nat))
    (hmem : c.1 ∈ known) :
    floodLoop w h f (c :: rest) known hints = floodLoop w h f rest known hints := by
  rw [floodLoop.eq_def]
  exact dif_pos hmem

theorem floodLoop_cons_zero (w h : Nat) (f : Coord → Nat) (c : BCell w h)
    (rest : List (BCell w h)) (known : List Coord) (hints : List (Coord × Nat))
    (hmem : c.1 ∉ known) (hz : f c.1 = 0) :
    floodLoop w h f (c :: rest) known hints =
      floodLoop w h f ((neighbourCellsB w h c.1).reverse ++ rest)
        (known ++ [c.1]) (hints ++ [(c.1, f c.1)]) := by
  rw [floodLoop.eq_def]
  exact (dif_neg hmem).trans (if_pos hz)

theorem floodLoop_cons_pos (w h : Nat) (f : Coord → Nat) (c : BCell w h)
    (rest : List (BCell w h)) (known : List Coord) (hints : List (Coord × Nat))
    (hmem : c.1 ∉ known) (hz : f c.1 ≠ 0) :
    floodLoop w h f (c :: rest) known hints =
      floodLoop w h f rest (known ++ [c.1]) (hints ++ [(c.1, f c.1)]) := by
  rw [floodLoop.eq_def]
  exact (dif_neg hmem).trans (if_neg hz)

/-! ### Reachability: the zero-hint region and its frontier -/



theorem ReachU.toReach {w h : Nat} {f : Coord → Nat} {known : List Coord}
    {a d : Coord} (hr : ReachU w h f known a d) : Reach w h f a d := by
  induction hr with
  | refl a => exact .refl a
  | step _ hz hb _ ih => exact .step hz hb ih

theorem ReachU.mono {w h : Nat} {f : Coord → Nat} {known known' : List Coord}
    (hsub : ∀ c, c ∈ known → c ∈ known') {a d : Coord}
    (hr : ReachU w h f known' a d) : ReachU w h f known a d := by
  induction hr with
  | refl a => exact .refl a
  | step ha hz hb _ ih => exact .step (fun hc => ha (hsub _ hc)) hz hb ih

theorem ReachU.trans {w h : Nat} {f : Coord → Nat} {known : List Coord}
    {a b d : Coord} (h1 : ReachU w h f known a b) (h2 : ReachU w h f known b d) :
    ReachU w h f known a d := by
  induction h1 with
  | refl a => exact h2
  | step ha hz hb _ ih => exact .step ha hz hb (ih h2)

theorem Reach.snoc {w h : Nat} {f : Coord → Nat} {a b d : Coord}
    (h1 : Reach w h f a b) : f b = 0 → d ∈ neighbourCells w h b →
    Reach w h f a d := by
  induction h1 with
  | refl a => exact fun hz hb => .step hz hb (.refl d)
  | step hz' hb' _ ih => exact fun hz hb => .step hz' hb' (ih hz hb)

theorem Reach.last {w h : Nat} {f : Coord → Nat} {a d : Coord}
    (hr : Reach w h f a d) :
    a = d ∨ f d = 0 ∨ ∃ c, Reach w h f a c ∧ f c = 0 ∧ d ∈ neighbourCells w h c := by
  induction hr with
  | refl a => exact Or.inl rfl
  | step hz hb _ ih =>
    rcases ih with rfl | hd | ⟨c, hc, hcz, hdc⟩
    · exact Or.inr (Or.inr ⟨_, .refl _, hz, hb⟩)
    · exact Or.inr (Or.inl hd)
    · exact Or.inr (Or.inr ⟨c, .step hz hb hc, hcz, hdc⟩)



theorem reach_iff_region_frontier (w h : Nat) (f : Coord → Nat) (start d : Coord) :
    Reach w h f start d ↔
      d = start ∨ (f start = 0 ∧
        (zeroRegion w h f start d ∨ zeroFrontier w h f start d)) := by
  constructor
  · intro hr
    cases hr with
    | refl => exact Or.inl rfl
    | step hz hb hr' =>
      refine Or.inr ⟨hz, ?_⟩
      by_cases hd : f d = 0
      · exact Or.inl ⟨.step hz hb hr', hd⟩
      · have hfull : Reach w h f start d := .step hz hb hr'
        rcases hfull.last with rfl | h0 | ⟨c, hc, hcz, hdc⟩
        · exact Or.inl ⟨.refl _, hz⟩
        · exact absurd h0 hd
        · exact Or.inr ⟨hd, c, ⟨hc, hcz⟩, hdc⟩
  · rintro (rfl | ⟨hz, ⟨hrd, _⟩ | ⟨_, c, ⟨hrc, hcz⟩, hdc⟩⟩)
    · exact .refl d
    · exact hrd
    · exact hrc.snoc hcz hdc


/-! ### Correctness of the flood-fill loop -/

theorem mem_neighbourCellsB_val {w h : Nat} {a : Coord} {e : BCell w h}
    (he : e ∈ neighbourCellsB w h a) : e.1 ∈ neighbourCells w h a := by
  unfold neighbourCellsB at he
  simp only [List.mem_map, List.mem_attach, true_and] at he
  obtain ⟨d, rfl⟩ := he
  exact d.2

theorem neighbourCellsB_val {w h : Nat} {a x : Coord}
    (hx : x ∈ neighbourCells w h a) : ∃ e ∈ neighbourCellsB w h a, e.1 = x := by
  refine ⟨⟨x, mem_neighbourCells_bounds hx⟩, ?_, rfl⟩
  unfold neighbourCellsB
  simp only [List.mem_map, List.mem_attach, true_and]
  exact ⟨⟨x, hx⟩, rfl⟩

/-- Shape and soundness of the loop: it only appends to `known` and to
`hints`, in lockstep and without duplicates, and everything it appends was
unrevealed, lies in bounds, and is flood-reachable (through cells unrevealed
at entry) from some stack cell. -/
theorem floodLoop_spec (w h : Nat) (f : Coord → Nat) (stack : List (BCell w h))
    (known : List Coord) (hints : List (Coord × Nat)) :
    ∃ Δ : List Coord,
      (floodLoop w h f stack known hints).2 = known ++ Δ ∧
      (floodLoop w h f stack known hints).1 = hints ++ Δ.map (fun c => (c, f c)) ∧
      Δ.Nodup ∧
      ∀ d ∈ Δ, d ∉ known ∧ (d.1 < w ∧ d.2 < h) ∧
        ∃ c ∈ stack, ReachU w h f known c.1 d := by
  induction stack, known, hints using floodLoop.induct w h f with
  | case1 known hints =>
    exact ⟨[], by simp [floodLoop_nil], by simp [floodLoop_nil], List.nodup_nil, by simp⟩
  | case2 known hints c rest hmem ih =>
    obtain ⟨Δ, h2, h1, hnd, hall⟩ := ih
    rw [floodLoop_cons_mem w h f c rest known hints hmem]
    refine ⟨Δ, h2, h1, hnd, fun d hd => ?_⟩
    obtain ⟨hdk, hdb, e, he, hr⟩ := hall d hd
    exact ⟨hdk, hdb, e, List.mem_cons_of_mem _ he, hr⟩
  | case3 known hints c rest hmem hz ih =>
    obtain ⟨Δ, h2, h1, hnd, hall⟩ := ih
    rw [floodLoop_cons_zero w h f c rest known hints hmem hz]
    refine ⟨c.1 :: Δ, ?_, ?_, ?_, ?_⟩
    · rw [h2]; simp
    · rw [h1]; simp [hz]
    · refine List.nodup_cons.mpr ⟨fun hc => ?_, hnd⟩
      exact (hall _ hc).1 (List.mem_append_right _ (List.mem_singleton_self _))
    · intro d hd
      rcases List.mem_cons.mp hd with rfl | hd
      · exact ⟨hmem, c.2, c, List.mem_cons_self _ _, .refl _⟩
      · obtain ⟨hdk, hdb, e, he, hr⟩ := hall d hd
        have hdk' : d ∉ known := fun hc => hdk (List.mem_append_left _ hc)
        have hr' : ReachU w h f known e.1 d :=
          hr.mono fun x hx => List.mem_append_left _ hx
        rcases List.mem_append.mp he with hnb | hrest
        · have hev : e.1 ∈ neighbourCells w h c.1 :=
            mem_neighbourCellsB_val (List.mem_reverse.mp hnb)
          exact ⟨hdk', hdb, c, List.mem_cons_self _ _,
            ReachU.trans (.step hmem hz hev (.refl _)) hr'⟩
        · exact ⟨hdk', hdb, e, List.mem_cons_of_mem _ hrest, hr'⟩
  | case4 known hints c rest hmem hz ih =>
    obtain ⟨Δ, h2, h1, hnd, hall⟩ := ih
    rw [floodLoop_cons_pos w h f c rest known hints hmem hz]
    refine ⟨c.1 :: Δ, ?_, ?_, ?_, ?_⟩
    · rw [h2]; simp
    · rw [h1]; simp
    · refine List.nodup_cons.mpr ⟨fun hc => ?_, hnd⟩
      exact (hall _ hc).1 (List.mem_append_right _ (List.mem_singleton_self _))
    · intro d hd
      rcases List.mem_cons.mp hd with rfl | hd
      · exact ⟨hmem, c.2, c, List.mem_cons_self _ _, .refl _⟩
      · obtain ⟨hdk, hdb, e, he, hr⟩ := hall d hd
        have hdk' : d ∉ known := fun hc => hdk (List.mem_append_left _ hc)
        exact ⟨hdk', hdb, e, List.mem_cons_of_mem _ he,
          hr.mono fun x hx => List.mem_append_left _ hx⟩

/-- The final `known` list only grows. -/
theorem floodLoop_known_mono (w h : Nat) (f : Coord → Nat)
    (stack : List (BCell w h)) (known : List Coord) (hints : List (Coord × Nat)) :
    ∀ d ∈ known, d ∈ (floodLoop w h f stack known hints).2 := by
  obtain ⟨Δ, h2, -, -, -⟩ := floodLoop_spec w h f stack known hints
  intro d hd
  rw [h2]
  exact List.mem_append_left _ hd

/-- Every cell on the stack ends up revealed. -/
theorem floodLoop_stack_subset (w h : Nat) (f : Coord → Nat)
    (stack : List (BCell w h)) (known : List Coord) (hints : List (Coord × Nat)) :
    ∀ c ∈ stack, c.1 ∈ (floodLoop w h f stack known hints).2 := by
  induction stack, known, hints using floodLoop.induct w h f with
  | case1 known hints => simp
  | case2 known hints c rest hmem ih =>
    rw [floodLoop_cons_mem w h f c rest known hints hmem]
    intro e he
    rcases List.mem_cons.mp he with rfl | he
    · exact floodLoop_known_mono w h f rest known hints _ hmem
    · exact ih e he
  | case3 known hints c rest hmem hz ih =>
    rw [floodLoop_cons_zero w h f c rest known hints hmem hz]
    intro e he
    rcases List.mem_cons.mp he with rfl | he
    · exact floodLoop_known_mono w h f _ _ _ _
        (List.mem_append_right _ (List.mem_singleton_self _))
    · exact ih e (List.mem_append_right _ he)
  | case4 known hints c rest hmem hz ih =>
    rw [floodLoop_cons_pos w h f c rest known hints hmem hz]
    intro e he
    rcases List.mem_cons.mp he with rfl | he
    · exact floodLoop_known_mono w h f _ _ _ _
        (List.mem_append_right _ (List.mem_singleton_self _))
    · exact ih e he

/-- Every newly revealed zero-hint cell gets all its neighbours revealed:
when it was popped, they were all pushed, and every pushed cell ends up
revealed. -/
theorem floodLoop_closed (w h : Nat) (f : Coord → Nat)
    (stack : List (BCell w h)) (known : List Coord) (hints : List (Coord × Nat)) :
    ∀ d, d ∈ (floodLoop w h f stack known hints).2 → d ∉ known → f d = 0 →
      ∀ x ∈ neighbourCells w h d, x ∈ (floodLoop w h f stack known hints).2 := by
  induction stack, known, hints using floodLoop.induct w h f with
  | case1 known hints =>
    rw [floodLoop_nil]
    exact fun d hd hdk _ _ _ => absurd hd hdk
  | case2 known hints c rest hmem ih =>
    rw [floodLoop_cons_mem w h f c rest known hints hmem]
    exact ih
  | case3 known hints c rest hmem hz ih =>
    rw [floodLoop_cons_zero w h f c rest known hints hmem hz]
    intro d hd hdk hdz x hx
    by_cases hdc : d = c.1
    · subst hdc
      obtain ⟨e, he, hev⟩ := neighbourCellsB_val hx
      have hmem' := floodLoop_stack_subset w h f
        ((neighbourCellsB w h c.1).reverse ++ rest) (known ++ [c.1])
        (hints ++ [(c.1, f c.1)])
        e (List.mem_append_left _ (List.mem_reverse.mpr he))
      rwa [hev] at hmem'
    · have hdk' : d ∉ known ++ [c.1] := by
        intro hc
        rcases List.mem_append.mp hc with hc | hc
        · exact hdk hc
        · exact hdc (List.mem_singleton.mp hc)
      exact ih d hd hdk' hdz x hx
  | case4 known hints c rest hmem hz ih =>
    rw [floodLoop_cons_pos w h f c rest known hints hmem hz]
    intro d hd hdk hdz x hx
    have hdc : d ≠ c.1 := fun hdc => hz (hdc ▸ hdz)
    have hdk' : d ∉ known ++ [c.1] := by
      intro hc
      rcases List.mem_append.mp hc with hc | hc
      · exact hdk hc
      · exact hdc (List.mem_singleton.mp hc)
    exact ih d hd hdk' hdz x hx

/-- If the revealed set was closed under the flood rule at entry, the final
revealed set is closed under it outright. -/
theorem floodLoop_known_closed (w h : Nat) (f : Coord → Nat)
    (stack : List (BCell w h)) (known : List Coord) (hints : List (Coord × Nat))
    (hclosed : ∀ c ∈ known, f c = 0 → ∀ x ∈ neighbourCells w h c, x ∈ known) :
    ∀ c ∈ (floodLoop w h f stack known hints).2, f c = 0 →
      ∀ x ∈ neighbourCells w h c, x ∈ (floodLoop w h f stack known hints).2 := by
  intro c hc hz x hx
  by_cases hck : c ∈ known
  · exact floodLoop_known_mono w h f stack known hints x (hclosed c hck hz x hx)
  · exact floodLoop_closed w h f stack known hints c hc hck hz x hx

/-- A closed set absorbs everything flood-reachable from its members. -/
theorem reach_mem_of_closed {w h : Nat} {f : Coord → Nat} {K : List Coord}
    (hclosed : ∀ c ∈ K, f c = 0 → ∀ x ∈ neighbourCells w h c, x ∈ K)
    {a d : Coord} (hr : Reach w h f a d) : a ∈ K → d ∈ K := by
  induction hr with
  | refl a => exact id
  | step hz hb _ ih => exact fun ha => ih (hclosed _ ha hz _ hb)


/-! ### Unfolding `play` -/

theorem pyNorm_coe {n k : Nat} (hk : k < n) : pyNorm n (k : Int) = some k := by
  unfold pyNorm
  rw [if_pos ⟨Int.natCast_nonneg k, by exact_mod_cast hk⟩]
  simp

theorem pyNorm_eq_none_iff (n : Nat) (i : Int) :
    pyNorm n i = none ↔ i < -(n : Int) ∨ (n : Int) ≤ i := by
  unfold pyNorm
  split
  · next hc => simp only [reduceCtorEq, false_iff]; omega
  · split
    · next hc => simp only [reduceCtorEq, false_iff]; omega
    · next h1 h2 => simp only [true_iff]; omega

/-- Running `play` on an in-bounds non-mine cell: run the flood fill, then decide
win vs progress by the known-cell count. -/
theorem play_inbounds_eq (s : GameState) (cx cy : Nat) (hcx : cx < s.width)
    (hcy : cy < s.height) (hnb : (cx, cy) ∉ s.bombs) :
    play s cx cy =
      (if ((floodLoop s.width s.height s.hint [⟨(cx, cy), hcx, hcy⟩] s.known []).2.length : Int)
          = s.numberToUncover then
        (.win,
         { s with known := (floodLoop s.width s.height s.hint [⟨(cx, cy), hcx, hcy⟩] s.known []).2 })
      else
        (.progress (floodLoop s.width s.height s.hint [⟨(cx, cy), hcx, hcy⟩] s.known []).1,
         { s with known := (floodLoop s.width s.height s.hint [⟨(cx, cy), hcx, hcy⟩] s.known []).2 })) := by
  unfold play
  split
  · next heq => rw [pyNorm_coe hcy] at heq; cases heq
  · next cy' heq =>
    rw [pyNorm_coe hcy] at heq
    injection heq with heq
    subst heq
    split
    · next heq' => rw [pyNorm_coe hcx] at heq'; cases heq'
    · next cx' heq' =>
      rw [pyNorm_coe hcx] at heq'
      injection heq' with heq'
      subst heq'
      rw [if_neg hnb]

/-- Running `play` on an in-bounds mine cell: immediate loss, state untouched. -/
theorem play_mine_eq (s : GameState) (cx cy : Nat) (hcx : cx < s.width)
    (hcy : cy < s.height) (hb : (cx, cy) ∈ s.bombs) :
    play s cx cy = (.loss, s) := by
  unfold play
  split
  · next heq => rw [pyNorm_coe hcy] at heq; cases heq
  · next cy' heq =>
    rw [pyNorm_coe hcy] at heq
    injection heq with heq
    subst heq
    split
    · next heq' => rw [pyNorm_coe hcx] at heq'; cases heq'
    · next cx' heq' =>
      rw [pyNorm_coe hcx] at heq'
      injection heq' with heq'
      subst heq'
      rw [if_pos hb]

/-- Calling `play` never touches anything but the revealed list. -/
theorem play_preserves (s : GameState) (x y : Int) :
    (play s x y).2.width = s.width ∧ (play s x y).2.height = s.height ∧
    (play s x y).2.bombs = s.bombs ∧ (play s x y).2.hint = s.hint ∧
    (play s x y).2.numberToUncover = s.numberToUncover := by
  unfold play
  split
  · exact ⟨rfl, rfl, rfl, rfl, rfl⟩
  · split
    · exact ⟨rfl, rfl, rfl, rfl, rfl⟩
    · split
      · exact ⟨rfl, rfl, rfl, rfl, rfl⟩
      · dsimp only
        split <;> exact ⟨rfl, rfl, rfl, rfl, rfl⟩

/-- Calling `play` preserves closedness of the revealed set, so `GameState.Closed`
holds in every state reachable from a construction (where `known = []`). -/
theorem play_closed (s : GameState) (x y : Int) (hclosed : s.Closed) :
    (play s x y).2.Closed := by
  unfold play
  split
  · exact hclosed
  · split
    · exact hclosed
    · split
      · exact hclosed
      · dsimp only
        split
        · intro c hc hz d hd
          exact floodLoop_known_closed s.width s.height s.hint _ s.known []
            hclosed c hc hz d hd
        · intro c hc hz d hd
          exact floodLoop_known_closed s.width s.height s.hint _ s.known []
            hclosed c hc hz d hd

/-- Claim C1: on a board in progress (revealed set closed under the flood
rule, the invariant every reachable state satisfies) revealing an in-bounds
non-mine cell `(cx, cy)` marks as revealed exactly the previously
unrevealed cells among: `(cx, cy)` itself, plus — when its hint is 0 —
every cell of the connected zero-hint region through `(cx, cy)` together
with its bordering positive-hint frontier, and nothing else; each newly
revealed cell is recorded exactly once, paired with its hint, in the
returned `progress` list. -/
theorem play_reveals_exactly_region (s : GameState) (cx cy : Nat)
    (hcx : cx < s.width) (hcy : cy < s.height) (hclosed : s.Closed)
    (hnb : (cx, cy) ∉ s.bombs) :
    ∃ Δ : List Coord,
      (play s cx cy).2.known = s.known ++ Δ ∧
      Δ.Nodup ∧
      (∀ d, d ∈ Δ ↔ (d ∉ s.known ∧ (d = (cx, cy) ∨
        (s.hint (cx, cy) = 0 ∧
          (zeroRegion s.width s.height s.hint (cx, cy) d ∨
           zeroFrontier s.width s.height s.hint (cx, cy) d))))) ∧
      (∀ hq, (play s cx cy).1 = .progress hq →
        hq = Δ.map fun d => (d, s.hint d)) := by
  obtain ⟨Δ, h2, h1, hnd, hall⟩ :=
    floodLoop_spec s.width s.height s.hint [⟨(cx, cy), hcx, hcy⟩] s.known []
  rw [play_inbounds_eq s cx cy hcx hcy hnb]
  refine ⟨Δ, ?_, hnd, ?_, ?_⟩
  · split <;> exact h2
  · intro d
    rw [← reach_iff_region_frontier]
    constructor
    · intro hd
      obtain ⟨hdk, -, c, hc, hr⟩ := hall d hd
      rcases List.mem_singleton.mp hc with rfl
      exact ⟨hdk, hr.toReach⟩
    · rintro ⟨hdk, hr⟩
      have hstart : (cx, cy) ∈
          (floodLoop s.width s.height s.hint [⟨(cx, cy), hcx, hcy⟩] s.known []).2 :=
        floodLoop_stack_subset s.width s.height s.hint _ s.known []
          ⟨(cx, cy), hcx, hcy⟩ (List.mem_singleton_self _)
      have hmem : d ∈
          (floodLoop s.width s.height s.hint [⟨(cx, cy), hcx, hcy⟩] s.known []).2 :=
        reach_mem_of_closed
          (floodLoop_known_closed s.width s.height s.hint _ s.known [] hclosed)
          hr hstart
      rw [h2] at hmem
      rcases List.mem_append.mp hmem with hmem | hmem
      · exact absurd hmem hdk
      · exact hmem
  · intro hq h
    revert h
    split
    · exact fun h => PlayResult.noConfusion h
    · intro h
      injection h with h
      rw [← h, h1]
      simp

/-- Claim C2: revealing an in-bounds non-mine cell returns `win` exactly when
the revealed-cell count after the flood fill equals
`_number_of_cells_to_uncover`; the result is then the bare `win` signal
(which carries no cell list), otherwise a `progress` list. -/
theorem play_win_iff_count (s : GameState) (cx cy : Nat)
    (hcx : cx < s.width) (hcy : cy < s.height) (hnb : (cx, cy) ∉ s.bombs) :
    ((play s cx cy).1 = .win ↔
      ((play s cx cy).2.known.length : Int) = s.numberToUncover) ∧
    ((play s cx cy).1 = .win ∨ ∃ hq, (play s cx cy).1 = .progress hq) := by
  rw [play_inbounds_eq s cx cy hcx hcy hnb]
  split
  · next hlen => exact ⟨⟨fun _ => hlen, fun _ => rfl⟩, Or.inl rfl⟩
  · next hlen =>
    exact ⟨⟨fun h => PlayResult.noConfusion h, fun h => absurd h hlen⟩,
      Or.inr ⟨_, rfl⟩⟩

/-- Claim C3: revealing an in-bounds mine cell returns `loss` and leaves the
whole state — in particular the revealed set and its count — unchanged. -/
theorem play_mine_is_loss (s : GameState) (cx cy : Nat)
    (hcx : cx < s.width) (hcy : cy < s.height) (hb : (cx, cy) ∈ s.bombs) :
    play s cx cy = (.loss, s) ∧ (play s cx cy).2.known = s.known ∧
    (play s cx cy).2.known.length = s.known.length := by
  have h := play_mine_eq s cx cy hcx hcy hb
  exact ⟨h, by rw [h], by rw [h]⟩

/-- Claim C6: revealing an already-revealed in-bounds non-mine cell on a board
in progress returns `progress []` and leaves the state unchanged: the
traversal pops the start cell, finds it already known, and stops. -/
theorem play_idempotent_on_revealed (s : GameState) (cx cy : Nat)
    (hcx : cx < s.width) (hcy : cy < s.height) (hnb : (cx, cy) ∉ s.bombs)
    (hk : (cx, cy) ∈ s.known)
    (hprog : (s.known.length : Int) ≠ s.numberToUncover) :
    play s cx cy = (.progress [], s) := by
  rw [play_inbounds_eq s cx cy hcx hcy hnb]
  have hfl : floodLoop s.width s.height s.hint [⟨(cx, cy), hcx, hcy⟩] s.known []
      = ([], s.known) := by
    rw [floodLoop_cons_mem _ _ _ _ _ _ _ hk, floodLoop_nil]
  rw [hfl]
  exact if_neg hprog

/-! ### Counting cells -/


theorem mem_gridCells (w h : Nat) (c : Coord) :
    c ∈ gridCells w h ↔ c.1 < w ∧ c.2 < h := by
  unfold gridCells
  simp only [List.mem_flatMap, List.mem_range, List.mem_map]
  constructor
  · rintro ⟨y, hy, x, hx, rfl⟩
    exact ⟨hx, hy⟩
  · rintro ⟨h1, h2⟩
    exact ⟨c.2, h2, c.1, h1, rfl⟩

theorem length_le_grid (w h : Nat) (l : List Coord) (hnd : l.Nodup)
    (hin : ∀ c ∈ l, c.1 < w ∧ c.2 < h) : l.length ≤ w * h := by
  have hsub : l.toFinset ⊆ Finset.range w ×ˢ Finset.range h := by
    intro c hc
    rw [List.mem_toFinset] at hc
    rcases hin c hc with ⟨h1, h2⟩
    rw [Finset.mem_product]
    exact ⟨Finset.mem_range.mpr h1, Finset.mem_range.mpr h2⟩
  calc l.length = l.toFinset.card := (List.toFinset_card_of_nodup hnd).symm
    _ ≤ (Finset.range w ×ˢ Finset.range h).card := Finset.card_le_card hsub
    _ = w * h := by rw [Finset.card_product, Finset.card_range, Finset.card_range]

theorem length_le_safe (w h : Nat) (bombs l : List Coord)
    (hbnd : bombs.Nodup) (hbin : ∀ b ∈ bombs, b.1 < w ∧ b.2 < h)
    (hnd : l.Nodup) (hin : ∀ c ∈ l, c.1 < w ∧ c.2 < h)
    (hlb : ∀ c ∈ l, c ∉ bombs) : l.length ≤ w * h - bombs.length := by
  have hsub : l.toFinset ⊆ (Finset.range w ×ˢ Finset.range h) \ bombs.toFinset := by
    intro c hc
    rw [List.mem_toFinset] at hc
    rcases hin c hc with ⟨h1, h2⟩
    rw [Finset.mem_sdiff, Finset.mem_product, List.mem_toFinset]
    exact ⟨⟨Finset.mem_range.mpr h1, Finset.mem_range.mpr h2⟩, hlb c hc⟩
  have hbsub : bombs.toFinset ⊆ Finset.range w ×ˢ Finset.range h := by
    intro b hb
    rw [List.mem_toFinset] at hb
    rcases hbin b hb with ⟨h1, h2⟩
    rw [Finset.mem_product]
    exact ⟨Finset.mem_range.mpr h1, Finset.mem_range.mpr h2⟩
  calc l.length = l.toFinset.card := (List.toFinset_card_of_nodup hnd).symm
    _ ≤ ((Finset.range w ×ˢ Finset.range h) \ bombs.toFinset).card :=
        Finset.card_le_card hsub
    _ = (Finset.range w ×ˢ Finset.range h).card - bombs.toFinset.card :=
        Finset.card_sdiff hbsub
    _ = w * h - bombs.length := by
        rw [Finset.card_product, Finset.card_range, Finset.card_range,
          List.toFinset_card_of_nodup hbnd]

/-! ### What `play` does to the revealed list -/

/-- A `play` call either leaves the revealed list alone (index error or
mine) or replaces it by the outcome of the flood fill from the (normalised,
in-bounds, non-mine) target cell. -/
theorem play_known_cases (s : GameState) (x y : Int) :
    (play s x y).2.known = s.known ∨
    ∃ (cx cy : Nat) (hcx : cx < s.width) (hcy : cy < s.height),
      (cx, cy) ∉ s.bombs ∧
      (play s x y).2.known =
        (floodLoop s.width s.height s.hint [⟨(cx, cy), hcx, hcy⟩] s.known []).2 := by
  unfold play
  split
  · exact Or.inl rfl
  · next cy heq =>
    split
    · exact Or.inl rfl
    · next cx heq' =>
      split
      · exact Or.inl rfl
      · next hnb =>
        dsimp only
        refine Or.inr ⟨cx, cy, pyNorm_lt heq', pyNorm_lt heq, hnb, ?_⟩
        split <;> rfl

/-- Calling `play` preserves distinctness and in-boundedness of the revealed list,
and only ever appends to it. -/
theorem play_known_invariants (s : GameState) (x y : Int)
    (hknd : s.known.Nodup)
    (hkin : ∀ c ∈ s.known, c.1 < s.width ∧ c.2 < s.height) :
    (play s x y).2.known.Nodup ∧
    (∀ c ∈ (play s x y).2.known, c.1 < s.width ∧ c.2 < s.height) ∧
    ∃ Δ : List Coord, (play s x y).2.known = s.known ++ Δ := by
  rcases play_known_cases s x y with hk | ⟨cx, cy, hcx, hcy, hnb, hk⟩
  · rw [hk]
    exact ⟨hknd, hkin, [], by simp⟩
  · obtain ⟨Δ, h2, -, hnd, hall⟩ :=
      floodLoop_spec s.width s.height s.hint [⟨(cx, cy), hcx, hcy⟩] s.known []
    rw [hk, h2]
    refine ⟨List.Nodup.append hknd hnd ?_, ?_, Δ, rfl⟩
    · intro a ha ha'
      exact (hall a ha').1 ha
    · intro c hc
      rcases List.mem_append.mp hc with hc | hc
      · exact hkin c hc
      · exact (hall c hc).2.1

/-! ### The hint grid counts neighbouring mines -/

theorem bumpHints_eval (g : Coord → Nat) (cs : List Coord) (d : Coord) :
    bumpHints g cs d = g d + cs.countP (fun x => x = d) := by
  induction cs generalizing g with
  | nil => simp [bumpHints]
  | cons c cs ih =>
    rw [bumpHints, List.foldl_cons]
    have h2 := ih fun e => if e = c then g c + 1 else g e
    rw [bumpHints] at h2
    rw [h2, List.countP_cons]
    by_cases hdc : d = c
    · subst hdc
      simp
      ring
    · have hcd : ¬(c = d) := fun he => hdc he.symm
      simp [hdc, hcd]

theorem mkHints_eval (w h : Nat) (bombs : List Coord) (c : Coord) :
    mkHints w h bombs c
      = (bombs.map fun b => (neighbourCells w h b).countP (fun x => x = c)).sum := by
  have key : ∀ g : Coord → Nat,
      bombs.foldl (fun g b => bumpHints g (neighbourCells w h b)) g c
        = g c + (bombs.map fun b => (neighbourCells w h b).countP (fun x => x = c)).sum := by
    induction bombs with
    | nil => intro g; simp
    | cons b bs ih =>
      intro g
      rw [List.foldl_cons, ih, bumpHints_eval, List.map_cons, List.sum_cons]
      omega
  rw [mkHints, key]
  exact Nat.zero_add _

theorem neighbourCells_nodup (w h : Nat) (c : Coord) :
    (neighbourCells w h c).Nodup := by
  unfold neighbourCells
  refine List.Nodup.filterMap ?_ (by decide)
  intro uv uv' d hd hd'
  simp only [Option.mem_def] at hd hd'
  split at hd
  · next hc1 =>
    injection hd with hd
    split at hd'
    · next hc2 =>
      injection hd' with hd'
      obtain ⟨u, v⟩ := uv
      obtain ⟨u', v'⟩ := uv'
      have he := hd.trans hd'.symm
      rw [Prod.mk.injEq] at he
      obtain ⟨e1, e2⟩ := he
      rw [Prod.mk.injEq]
      constructor <;> omega
    · exact Option.noConfusion hd'
  · exact Option.noConfusion hd

/-- Membership characterisation of `_neighbour_cells`: the in-bounds cells
at Chebyshev distance exactly 1. -/
theorem mem_neighbourCells_iff {w h : Nat} {b c : Coord} :
    c ∈ neighbourCells w h b ↔
      c.1 < w ∧ c.2 < h ∧ c ≠ b ∧
      (c.1 : Int) - b.1 ≤ 1 ∧ (b.1 : Int) - c.1 ≤ 1 ∧
      (c.2 : Int) - b.2 ≤ 1 ∧ (b.2 : Int) - c.2 ≤ 1 := by
  have hop : offsetPairs
      = [(-1, -1), (-1, 0), (-1, 1), (0, -1), (0, 1), (1, -1), (1, 0), (1, 1)] := by
    decide
  unfold neighbourCells
  rw [hop]
  simp only [List.mem_filterMap, List.mem_cons, List.not_mem_nil, or_false]
  constructor
  · rintro ⟨uv, huv, hf⟩
    rcases huv with rfl | rfl | rfl | rfl | rfl | rfl | rfl | rfl <;>
    · split at hf
      · next hcond =>
        injection hf with hf
        subst hf
        refine ⟨by omega, by omega, fun heq => ?_, by omega, by omega, by omega, by omega⟩
        rw [Prod.ext_iff] at heq
        dsimp only at heq
        omega
      · exact Option.noConfusion hf
  · rintro ⟨h1, h2, hne, h3, h4, h5, h6⟩
    refine ⟨((c.1 : Int) - b.1, (c.2 : Int) - b.2), ?_, ?_⟩
    · have hu : (c.1 : Int) - b.1 = -1 ∨ (c.1 : Int) - b.1 = 0 ∨ (c.1 : Int) - b.1 = 1 := by
        omega
      have hv : (c.2 : Int) - b.2 = -1 ∨ (c.2 : Int) - b.2 = 0 ∨ (c.2 : Int) - b.2 = 1 := by
        omega
      rcases hu with hu | hu | hu <;> rcases hv with hv | hv | hv <;>
        first
          | (exact absurd (Prod.ext_iff.mpr ⟨by omega, by omega⟩) hne)
          | (simp only [Prod.mk.injEq]; omega)
    · rw [if_pos ⟨by omega, by omega, by omega, by omega⟩]
      congr 1
      rw [Prod.ext_iff]
      constructor <;> · dsimp only; omega

theorem countP_eq_indicator {l : List Coord} (hl : l.Nodup) (c : Coord) :
    (l.countP fun x => x = c) = if c ∈ l then 1 else 0 := by
  induction l with
  | nil => simp
  | cons a l ih =>
    rcases List.nodup_cons.mp hl with ⟨ha, hl'⟩
    rw [List.countP_cons, ih hl']
    by_cases hac : a = c
    · subst hac
      rw [if_neg ha, if_pos (List.mem_cons_self a l)]
      simp
    · have hca : ¬(c = a) := fun he => hac he.symm
      by_cases hcl : c ∈ l <;>
        simp [List.mem_cons, hac, hca, hcl]

theorem sum_count_eq_length_filter (w h : Nat) (c : Coord) (bombs : List Coord) :
    (bombs.map fun b => (neighbourCells w h b).countP (fun x => x = c)).sum
      = (bombs.filter fun b => c ∈ neighbourCells w h b).length := by
  induction bombs with
  | nil => rfl
  | cons b bs ih =>
    rw [List.map_cons, List.sum_cons, ih, List.filter_cons,
      countP_eq_indicator (neighbourCells_nodup w h b)]
    by_cases hm : c ∈ neighbourCells w h b
    · simp [hm]
      ring
    · simp [hm]

theorem length_filter_mem_comm (A B : List Coord)
    (hA : A.Nodup) (hB : B.Nodup) :
    (A.filter fun a => a ∈ B).length = (B.filter fun b => b ∈ A).length := by
  have e1 : (A.filter fun a => a ∈ B).toFinset = A.toFinset ∩ B.toFinset := by
    ext x
    simp [List.mem_filter]
  have e2 : (B.filter fun b => b ∈ A).toFinset = B.toFinset ∩ A.toFinset := by
    ext x
    simp [List.mem_filter]
  have n1 : (A.filter fun a => a ∈ B).Nodup := hA.filter _
  have n2 : (B.filter fun b => b ∈ A).Nodup := hB.filter _
  rw [← List.toFinset_card_of_nodup n1, ← List.toFinset_card_of_nodup n2, e1, e2,
    Finset.inter_comm]

/-- If the hint grid was built by the constructor's bomb loop then every
in-bounds cell's hint counts its in-bounds mine neighbours. -/
theorem mkHints_counts_mines (w h : Nat) (bombs : List Coord)
    (hnd : bombs.Nodup) (hin : ∀ b ∈ bombs, b.1 < w ∧ b.2 < h)
    (c : Coord) (hc1 : c.1 < w) (hc2 : c.2 < h) :
    mkHints w h bombs c
      = ((neighbourCells w h c).filter fun d => d ∈ bombs).length := by
  rw [mkHints_eval, sum_count_eq_length_filter]
  have hcong : (bombs.filter fun b => c ∈ neighbourCells w h b)
      = bombs.filter fun b => b ∈ neighbourCells w h c := by
    apply List.filter_congr
    intro b hb
    rcases hin b hb with ⟨hb1, hb2⟩
    simp only [decide_eq_decide]
    rw [mem_neighbourCells_iff, mem_neighbourCells_iff]
    constructor
    · rintro ⟨x1, x2, xne, x3, x4, x5, x6⟩
      exact ⟨hb1, hb2, fun he => xne he.symm, by omega, by omega, by omega, by omega⟩
    · rintro ⟨x1, x2, xne, x3, x4, x5, x6⟩
      exact ⟨hc1, hc2, fun he => xne he.symm, by omega, by omega, by omega, by omega⟩
  rw [hcong]
  exact length_filter_mem_comm bombs (neighbourCells w h c) hnd
    (neighbourCells_nodup w h c)

/-! ### Soundness of bomb placement -/

theorem placeBombs_sound (n : Nat) :
    ∀ (draws acc bombs : List Coord), placeBombs n acc draws = some bombs →
      acc.Nodup → bombs.Nodup ∧ ∀ b ∈ bombs, b ∈ acc ∨ b ∈ draws := by
  intro draws
  induction draws with
  | nil =>
    intro acc bombs h hnd
    rw [placeBombs] at h
    split at h
    · exact Option.noConfusion h
    · injection h with h
      subst h
      exact ⟨hnd, fun b hb => Or.inl hb⟩
  | cons d rest ih =>
    intro acc bombs h hnd
    rw [placeBombs] at h
    split at h
    · split at h
      · obtain ⟨h1, h2⟩ := ih acc bombs h hnd
        exact ⟨h1, fun b hb => (h2 b hb).imp id (List.mem_cons_of_mem d)⟩
      · next hdacc =>
        have hnd' : (acc ++ [d]).Nodup := by
          rw [List.nodup_append]
          exact ⟨hnd, List.nodup_singleton d,
            fun a ha hd => hdacc ((List.mem_singleton.mp hd) ▸ ha)⟩
        obtain ⟨h1, h2⟩ := ih (acc ++ [d]) bombs h hnd'
        refine ⟨h1, fun b hb => ?_⟩
        rcases h2 b hb with hba | hbr
        · rcases List.mem_append.mp hba with hba | hba
          · exact Or.inl hba
          · exact Or.inr (List.mem_singleton.mp hba ▸ List.mem_cons_self d rest)
        · exact Or.inr (List.mem_cons_of_mem d hbr)
    · injection h with h
      subst h
      exact ⟨hnd, fun b hb => Or.inl hb⟩

/-- Cells explored by one traversal never include a mine: the chain starts
at a non-mine cell and only crosses zero-hint cells, which by hint
soundness have no mine neighbours. -/
theorem ReachU_not_bomb {w h : Nat} {f : Coord → Nat} {known : List Coord}
    (bombs : List Coord)
    (hhint : ∀ c ∈ gridCells w h, f c = 0 → ∀ d ∈ neighbourCells w h c, d ∉ bombs)
    {a d : Coord} (hr : ReachU w h f known a d) :
    a.1 < w ∧ a.2 < h → a ∉ bombs → d ∉ bombs := by
  induction hr with
  | refl a => exact fun _ hab => hab
  | step ha hz hb _ ih =>
    intro haB hab
    exact ih (mem_neighbourCells_bounds hb)
      (hhint _ ((mem_gridCells w h _).mpr haB) hz _ hb)


/-! ### Remaining claims -/

/-- Claim C4, counterexample: the core `play` keeps no terminal state.  On
the constructed 2×2 board with its mine at `(1, 1)`, clicking the mine
returns `loss` and leaves the state unchanged — so the board is terminal —
yet a further `play` call reveals `(0, 0)`, mutating the revealed set and
returning `progress`, not the terminal result again. -/
theorem play_after_loss_not_noop :
    mkGame 2 2 1 [(1, 1)] = .ok lossBoard ∧
    play lossBoard 1 1 = (.loss, lossBoard) ∧
    play lossBoard 0 0
      = (.progress [((0, 0), 1)], { lossBoard with known := [(0, 0)] }) := by
  refine ⟨rfl, rfl, ?_⟩
  have h0w : (0 : Nat) < lossBoard.width := by decide
  have h0h : (0 : Nat) < lossBoard.height := by decide
  show play lossBoard ((0 : Nat) : Int) ((0 : Nat) : Int) = _
  rw [play_inbounds_eq lossBoard 0 0 h0w h0h (by decide)]
  have hm : ((0, 0) : Coord) ∉ lossBoard.known := by decide
  have hz : lossBoard.hint (0, 0) ≠ 0 := by decide
  rw [floodLoop_cons_pos lossBoard.width lossBoard.height lossBoard.hint
    ⟨(0, 0), h0w, h0h⟩ [] lossBoard.known [] hm hz]
  have hne : ¬(((lossBoard.known ++ [((0, 0) : Coord)]).length : Int)
      = lossBoard.numberToUncover) := by decide
  rw [floodLoop_nil, if_neg hne]
  rfl

/-- Claim C4, amended: terminal no-op behaviour is enforced by the UI layer,
not the core: once `game_over` has been set by a win or a loss,
`_update_game` ignores every further click, mutating nothing and invoking
`play` not at all (and produces no result, rather than repeating the
terminal one); the bare `play` itself keeps no terminal state. -/
theorem updateGame_terminal_noop (u : UIState) (hu : u.gameOver = true)
    (x y : Int) : updateGame u x y = u := by
  unfold updateGame
  rw [if_pos hu]

theorem updateGame_terminal_noop_witness :
    (UIState.mk board12 true).gameOver = true ∧
    updateGame (UIState.mk board12 true) 0 0 = UIState.mk board12 true :=
  ⟨rfl, updateGame_terminal_noop (UIState.mk board12 true) rfl 0 0⟩

/-- Claim C5: every board `mkGame` returns (its `randint` draws are in-bounds
by construction of `randint`'s arguments) carries, at every in-bounds cell,
a hint equal to the number of its in-bounds neighbours that are mines; and
no `play` call ever changes the hint grid. -/
theorem constructed_hints_count_mines (w h n : Int) (draws : List Coord)
    (hdr : ∀ d ∈ draws, d.1 < w.toNat ∧ d.2 < h.toNat)
    (s : GameState) (hmk : mkGame w h n draws = .ok s)
    (c : Coord) (hc1 : c.1 < s.width) (hc2 : c.2 < s.height) :
    s.hint c
      = ((neighbourCells s.width s.height c).filter fun d => d ∈ s.bombs).length ∧
    ∀ x y : Int, (play s x y).2.hint = s.hint := by
  unfold mkGame at hmk
  split at hmk
  · exact Except.noConfusion hmk
  · split at hmk
    · exact Except.noConfusion hmk
    · split at hmk
      · exact Except.noConfusion hmk
      · next bombs hpb =>
        injection hmk with hmk
        subst hmk
        obtain ⟨hbnd, hmem⟩ :=
          placeBombs_sound n.toNat draws [] bombs hpb List.nodup_nil
        have hbin : ∀ b ∈ bombs, b.1 < w.toNat ∧ b.2 < h.toNat := by
          intro b hb
          rcases hmem b hb with hb' | hb'
          · exact absurd hb' (List.not_mem_nil b)
          · exact hdr b hb'
        exact ⟨mkHints_counts_mines w.toNat h.toNat bombs hbnd hbin c hc1 hc2,
          fun x y => (play_preserves _ x y).2.2.2.1⟩

theorem constructed_hints_count_mines_witness :
    ((∀ d ∈ [((2 : Nat), (2 : Nat))], d.1 < (3 : Int).toNat ∧ d.2 < (3 : Int).toNat) ∧
      mkGame 3 3 1 [(2, 2)] = .ok board33 ∧
      (0 : Nat) < board33.width ∧ (0 : Nat) < board33.height) ∧
    (board33.hint (0, 0)
        = ((neighbourCells board33.width board33.height (0, 0)).filter
            fun d => d ∈ board33.bombs).length ∧
      ∀ x y : Int, (play board33 x y).2.hint = board33.hint) :=
  ⟨⟨by decide, rfl, by decide, by decide⟩,
   constructed_hints_count_mines 3 3 1 [(2, 2)] (by decide) board33 rfl (0, 0)
     (by decide) (by decide)⟩

/-- Claim C7, counterexample: the coordinate `x = -1` lies outside the grid
bounds, yet `play` on the constructed 2×1 board does not fail: Python's
negative indexing wraps `-1` to column 1 — here the mine — and the call
returns `loss`, not an out-of-bounds error. -/
theorem play_negative_x_wraps :
    mkGame 2 1 1 [(1, 0)] = .ok negBoard ∧
    play negBoard (-1) 0 = (.loss, negBoard) ∧
    PlayResult.loss ≠ PlayResult.indexError :=
  ⟨rfl, rfl, by decide⟩

/-- Claim C7, amended: `play` fails — propagating `IndexError` with the
state untouched — exactly when a coordinate lies outside Python's indexable
range: `x` outside `[-width, width)` or `y` outside `[-height, height)`.
In particular `x ≥ width` fails, but a negative coordinate in
`[-width, 0)` wraps to the opposite edge and is processed as that in-bounds
cell instead of failing. -/
theorem play_indexError_iff (s : GameState) (x y : Int) :
    play s x y = (.indexError, s) ↔
      y < -(s.height : Int) ∨ (s.height : Int) ≤ y ∨
      x < -(s.width : Int) ∨ (s.width : Int) ≤ x := by
  unfold play
  split
  · next heq =>
    rw [pyNorm_eq_none_iff] at heq
    exact iff_of_true rfl (by omega)
  · next cy heq =>
    have hy : ¬(y < -(s.height : Int) ∨ (s.height : Int) ≤ y) := by
      intro hc
      rw [(pyNorm_eq_none_iff s.height y).mpr hc] at heq
      exact Option.noConfusion heq
    split
    · next heq' =>
      rw [pyNorm_eq_none_iff] at heq'
      exact iff_of_true rfl (by omega)
    · next cx heq' =>
      have hx : ¬(x < -(s.width : Int) ∨ (s.width : Int) ≤ x) := by
        intro hc
        rw [(pyNorm_eq_none_iff s.width x).mpr hc] at heq'
        exact Option.noConfusion heq'
      refine iff_of_false ?_ (by omega)
      split
      · intro hcon
        exact PlayResult.noConfusion (congrArg Prod.fst hcon)
      · dsimp only
        split <;>
        · intro hcon
          exact PlayResult.noConfusion (congrArg Prod.fst hcon)

/-- Claim C8, counterexample: `mineCount = -1` violates `0 ≤ mineCount`, yet
construction succeeds and produces a board: the assert sees
`2*2 - (-1) = 5 > 0`, and the bomb-placing loop never runs because
`len(bombs) < -1` is immediately false. -/
theorem mkGame_accepts_negative_mines :
    ((-1 : Int) < 0) ∧
    mkGame 2 2 (-1) [] =
      .ok { width := 2, height := 2, bombs := [], hint := mkHints 2 2 [],
            known := [], numberToUncover := 5 } :=
  ⟨by decide, rfl⟩

/-- Claim C8, amended: the constructor's only explicit configuration check
is the assert on the safe-cell count: construction fails with the
assertion (`invalidConfiguration`) exactly when
`width*height - mineCount ≤ 0`.  This rejects `mineCount ≥ width*height`
and non-positive dimensions whenever `mineCount ≥ 0`, but a negative
`mineCount` with `width*height - mineCount > 0` is accepted and produces a
board (with no mines and an unreachable win condition). -/
theorem mkGame_invalidConfiguration_iff (w h n : Int) (draws : List Coord) :
    mkGame w h n draws = .error .invalidConfiguration ↔ w * h - n ≤ 0 := by
  unfold mkGame
  split
  · next hc => exact iff_of_true rfl hc
  · next hc =>
    refine iff_of_false (fun hcon => ?_) hc
    split at hcon
    · injection hcon with hcon
      exact ConfigError.noConfusion hcon
    · split at hcon
      · injection hcon with hcon
        exact ConfigError.noConfusion hcon
      · exact Except.noConfusion hcon

/-- Claim C9: `play` always terminates — it is a total Lean function, the
flood-fill loop being well-founded by the `knownCard` measure — and on a
board whose revealed list is distinct and in-bounds the revealed count
after any call stays at most `width * height`, so at most `width * height`
cells are marked per call. -/
theorem play_reveal_bounded (s : GameState) (x y : Int)
    (hknd : s.known.Nodup)
    (hkin : ∀ c ∈ s.known, c.1 < s.width ∧ c.2 < s.height) :
    (play s x y).2.known.Nodup ∧
    (play s x y).2.known.length ≤ s.width * s.height ∧
    s.known.length ≤ (play s x y).2.known.length := by
  obtain ⟨hnd, hin, Δ, happ⟩ := play_known_invariants s x y hknd hkin
  refine ⟨hnd, length_le_grid _ _ _ hnd hin, ?_⟩
  rw [happ, List.length_append]
  omega

theorem play_reveal_bounded_witness :
    (board33.known.Nodup ∧
      ∀ c ∈ board33.known, c.1 < board33.width ∧ c.2 < board33.height) ∧
    ((play board33 2 0).2.known.Nodup ∧
      (play board33 2 0).2.known.length ≤ board33.width * board33.height ∧
      board33.known.length ≤ (play board33 2 0).2.known.length) :=
  ⟨⟨by decide, by decide⟩, play_reveal_bounded board33 2 0 (by decide) (by decide)⟩

/-- Claim C10: if zero-hint in-bounds cells have no mine neighbours (the hint
invariant — true of every constructed grid), the bomb list is distinct and
in-bounds, and the revealed list is distinct, in-bounds and mine-free, then
after any `play` call — any coordinates, any number of calls — the revealed
list is still mine-free and its length never exceeds
`totalSafeCells = width*height - mineCount`. -/
theorem play_never_reveals_mines (s : GameState) (x y : Int)
    (hhint : ∀ c ∈ gridCells s.width s.height, s.hint c = 0 →
      ∀ d ∈ neighbourCells s.width s.height c, d ∉ s.bombs)
    (hbnd : s.bombs.Nodup)
    (hbin : ∀ b ∈ s.bombs, b.1 < s.width ∧ b.2 < s.height)
    (hknd : s.known.Nodup)
    (hkin : ∀ c ∈ s.known, c.1 < s.width ∧ c.2 < s.height)
    (hkb : ∀ c ∈ s.known, c ∉ s.bombs) :
    (∀ c ∈ (play s x y).2.known, c ∉ s.bombs) ∧
    (play s x y).2.known.length ≤ s.width * s.height - s.bombs.length := by
  have hmf : ∀ c ∈ (play s x y).2.known, c ∉ s.bombs := by
    rcases play_known_cases s x y with hk | ⟨cx, cy, hcx, hcy, hnb, hk⟩
    · rw [hk]
      exact hkb
    · obtain ⟨Δ, h2, -, -, hall⟩ :=
        floodLoop_spec s.width s.height s.hint [⟨(cx, cy), hcx, hcy⟩] s.known []
      rw [hk, h2]
      intro c hc
      rcases List.mem_append.mp hc with hc | hc
      · exact hkb c hc
      · obtain ⟨-, -, e, he, hr⟩ := hall c hc
        rcases List.mem_singleton.mp he with rfl
        exact ReachU_not_bomb s.bombs hhint hr ⟨hcx, hcy⟩ hnb
  obtain ⟨hnd, hin, -⟩ := play_known_invariants s x y hknd hkin
  exact ⟨hmf, length_le_safe _ _ _ _ hbnd hbin hnd hin hmf⟩

theorem play_never_reveals_mines_witness :
    ((∀ c ∈ gridCells board33.width board33.height, board33.hint c = 0 →
        ∀ d ∈ neighbourCells board33.width board33.height c, d ∉ board33.bombs) ∧
      board33.bombs.Nodup ∧
      (∀ b ∈ board33.bombs, b.1 < board33.width ∧ b.2 < board33.height) ∧
      board33.known.Nodup ∧
      (∀ c ∈ board33.known, c.1 < board33.width ∧ c.2 < board33.height) ∧
      (∀ c ∈ board33.known, c ∉ board33.bombs)) ∧
    ((∀ c ∈ (play board33 0 1).2.known, c ∉ board33.bombs) ∧
      (play board33 0 1).2.known.length
        ≤ board33.width * board33.height - board33.bombs.length) :=
  ⟨⟨by decide, by decide, by decide, by decide, by decide, by decide⟩,
   play_never_reveals_mines board33 0 1 (by decide) (by decide) (by decide)
     (by decide) (by decide) (by decide)⟩

/-! ### Remaining witnesses -/

theorem play_reveals_exactly_region_witness :
    ((0 : Nat) < board33.width ∧ (0 : Nat) < board33.height ∧
      board33.Closed ∧ ((0 : Nat), (0 : Nat)) ∉ board33.bombs) ∧
    (∃ Δ : List Coord,
      (play board33 0 0).2.known = board33.known ++ Δ ∧
      Δ.Nodup ∧
      (∀ d, d ∈ Δ ↔ (d ∉ board33.known ∧ (d = (0, 0) ∨
        (board33.hint (0, 0) = 0 ∧
          (zeroRegion board33.width board33.height board33.hint (0, 0) d ∨
           zeroFrontier board33.width board33.height board33.hint (0, 0) d))))) ∧
      (∀ hq, (play board33 0 0).1 = .progress hq →
        hq = Δ.map fun d => (d, board33.hint d))) :=
  ⟨⟨by decide, by decide, fun c hc => absurd hc (List.not_mem_nil c), by decide⟩,
   play_reveals_exactly_region board33 0 0 (by decide) (by decide)
     (fun c hc => absurd hc (List.not_mem_nil c)) (by decide)⟩

theorem play_win_iff_count_witness :
    ((0 : Nat) < board12.width ∧ (0 : Nat) < board12.height ∧
      ((0 : Nat), (0 : Nat)) ∉ board12.bombs) ∧
    (((play board12 0 0).1 = .win ↔
      ((play board12 0 0).2.known.length : Int) = board12.numberToUncover) ∧
     ((play board12 0 0).1 = .win ∨ ∃ hq, (play board12 0 0).1 = .progress hq)) :=
  ⟨⟨by decide, by decide, by decide⟩,
   play_win_iff_count board12 0 0 (by decide) (by decide) (by decide)⟩

theorem play_mine_is_loss_witness :
    ((0 : Nat) < board12.width ∧ (1 : Nat) < board12.height ∧
      ((0 : Nat), (1 : Nat)) ∈ board12.bombs) ∧
    (play board12 0 1 = (.loss, board12) ∧
      (play board12 0 1).2.known = board12.known ∧
      (play board12 0 1).2.known.length = board12.known.length) :=
  ⟨⟨by decide, by decide, by decide⟩,
   play_mine_is_loss board12 0 1 (by decide) (by decide) (by decide)⟩

theorem play_idempotent_on_revealed_witness :
    ((1 : Nat) < revBoard.width ∧ (1 : Nat) < revBoard.height ∧
      ((1 : Nat), (1 : Nat)) ∉ revBoard.bombs ∧
      ((1 : Nat), (1 : Nat)) ∈ revBoard.known ∧
      (revBoard.known.length : Int) ≠ revBoard.numberToUncover) ∧
    play revBoard 1 1 = (.progress [], revBoard) :=
  ⟨⟨by decide, by decide, by decide, by decide, by decide⟩,
   play_idempotent_on_revealed revBoard 1 1 (by decide) (by decide) (by decide)
     (by decide) (by decide)⟩

end Minesweeper
